import Mathlib

/-!
Verification of the dxos `broadcast` package (epidemic/flooding broadcast
engine).  The repository ships two historical revisions of each of its two
source files:

* `time-lru-set.js` — a bounded dedup set with per-entry expiry timers and
  LRU eviction.  The first (documented) revision is embedded below as
  `TimeLRUSet`; the second revision, which checks capacity *before* the
  membership test and whose `delete` dereferences a possibly missing entry,
  is embedded as `TimeLRUSet2`.
* `broadcast.js` — the flooding engine.  The first (legacy) revision, built
  on `TimeLRUSet` and an injected asynchronous `lookup`, is embedded in
  namespace `Legacy`; the second (canonical) revision, built on the external
  npm `lru` cache and push-style peer updates, is embedded in namespace
  `Canonical`.

Buffers (ids, seqnos, payloads) are abstracted as natural numbers; the JS
`msgId` helper builds the hex string `seqno:id`, which is injective on
buffers, so it is modelled as the pair `(seqno, id)`.  Expiry timers are
modelled by a logical clock: every `item.update()` stamps the entry with the
current clock value (the moment its `maxAge` countdown restarts) and advances
the clock.  Real-time firing of the timers is outside the sequential model.
The engine models are sequential: each handler invocation runs to completion
(including the promise chains it spawns) before the next one starts, which is
the happens-before order guaranteed by the single-threaded event loop.
-/

set_option linter.unusedSectionVars false

namespace Broadcast

variable {α : Type} [DecidableEq α]

/-! ## Association-list model of the JS `Map` used by `TimeLRUSet`.

The `Map` stores `value ↦ ItemCache`; the only observable content of an
`ItemCache` is the moment its expiry countdown was last restarted, modelled
as a `Nat` timestamp.  Keys are kept in insertion order, as JS `Map` does. -/

/-- Lookup in the association list, as `Map.prototype.get` (keys unique by
construction, first match). -/
def mapFind : List (α × Nat) → α → Option Nat
  | [], _ => none
  | p :: t, v => if p.1 = v then some p.2 else mapFind t v

/-- Insert or overwrite, as `Map.prototype.set`: an existing key keeps its
position and gets the new timestamp, a new key is appended. -/
def mapSet : List (α × Nat) → α → Nat → List (α × Nat)
  | [], v, c => [(v, c)]
  | p :: t, v, c => if p.1 = v then (v, c) :: t else p :: mapSet t v c

/-- Remove, as `Map.prototype.delete` (first matching key). -/
def mapErase : List (α × Nat) → α → List (α × Nat)
  | [], _ => []
  | p :: t, v => if p.1 = v then t else p :: mapErase t v

/-- Key list of the map, in insertion order (`Map.prototype.keys`). -/
def keysOf (m : List (α × Nat)) : List α := m.map Prod.fst

/-- Shared body of `_updateLRU`: `indexOf` + `splice` remove the first
occurrence, then `push` appends, moving `v` to the most-recently-used end. -/
def updateLRU (l : List α) (v : α) : List α := l.erase v ++ [v]

/-! ## `TimeLRUSet`, first revision of `time-lru-set.js`.

State of one instance.  `list` is `_list` (LRU order, head = least recently
touched), `map` holds the keys of `_map` together with the timestamp at which
each entry's `ItemCache` timer was last restarted, `clock` is the logical
time used to stamp `item.update()` calls. -/

structure TimeLRUSet (α : Type) where
  maxAge : Nat
  maxSize : Nat
  list : List α
  map : List (α × Nat)
  clock : Nat
deriving DecidableEq

namespace TimeLRUSet

/-- The freshly constructed set: empty list and map. -/
def empty (maxAge maxSize : Nat) : TimeLRUSet α :=
  { maxAge := maxAge, maxSize := maxSize, list := [], map := [], clock := 0 }

/-- Method `has`: on a hit the entry's timer is restarted (`item.update()`)
and the value is moved to the MRU position (`_updateLRU`); on a miss nothing
changes.  Returns the presence flag together with the touched state. -/
def has (s : TimeLRUSet α) (v : α) : Bool × TimeLRUSet α :=
  match mapFind s.map v with
  | some _ =>
      (true, { s with map := mapSet s.map v s.clock
                    , clock := s.clock + 1
                    , list := updateLRU s.list v })
  | none => (false, s)

/-- Method `delete`: a missing value returns `false` and leaves the state
alone; a present value has its timer cancelled (`item.clear()`), its map
entry removed and its list occurrence spliced out, returning `true`. -/
def delete (s : TimeLRUSet α) (v : α) : TimeLRUSet α × Bool :=
  match mapFind s.map v with
  | none => (s, false)
  | some _ => ({ s with map := mapErase s.map v, list := s.list.erase v }, true)

/-- Method `_deleteLRU`: `this.delete(this._list.shift())`.  `shift` removes
the head; on an empty list it yields `undefined`, and `delete(undefined)` is
a no-op returning `false`. -/
def deleteLRU (s : TimeLRUSet α) : TimeLRUSet α :=
  match s.list with
  | [] => s
  | h :: t => (delete { s with list := t } h).1

/-- Method `add`: the membership test (`this.has(value)`, itself a touch)
comes first; a present value is only touched.  A novel value triggers the
LRU eviction when `_list.length === _maxSize`, then a fresh `ItemCache` is
stored, its timer started (`item.update()`), and the value pushed to the MRU
position. -/
def add (s : TimeLRUSet α) (v : α) : TimeLRUSet α :=
  let hs := has s v
  if hs.1 then hs.2
  else
    let s2 := if hs.2.list.length = hs.2.maxSize then deleteLRU hs.2 else hs.2
    { s2 with map := mapSet s2.map v s2.clock
            , clock := s2.clock + 1
            , list := updateLRU s2.list v }

/-- Method `clear`: drops every entry and cancels every timer. -/
def clear (s : TimeLRUSet α) : TimeLRUSet α :=
  { s with list := [], map := [] }

/-- Expiry callback `_onTimeout`: plain `delete`, a no-op when the entry is
already gone. -/
def onTimeout (s : TimeLRUSet α) (v : α) : TimeLRUSet α := (delete s v).1

/-- Getter `size`: the size of `_map`. -/
def size (s : TimeLRUSet α) : Nat := s.map.length

/-- The set of stored tokens, read off the map keys. -/
def keys (s : TimeLRUSet α) : List α := keysOf s.map

/-- Structural invariant relating the two containers of a `TimeLRUSet`: the
LRU order list has no duplicates and holds exactly the tokens keyed by the
map. -/
def Inv (s : TimeLRUSet α) : Prop := s.list.Nodup ∧ s.list.Perm (keys s)

instance (s : TimeLRUSet α) : Decidable (Inv s) :=
  inferInstanceAs (Decidable (And _ _))

end TimeLRUSet

/-! ## `TimeLRUSet`, second revision of `time-lru-set.js`, as `TimeLRUSet2`.

Differences from the first revision: `add` performs the capacity check and
eviction *before* the membership test, and `delete` calls `item.clear()` on
the looked-up entry without a guard, so deleting an absent value throws a
`TypeError`; partiality is modelled with `Option` (`none` = throw).
`_deleteLRU` guards the shifted value (`if (value)`) before deleting. -/

structure TimeLRUSet2 (α : Type) where
  maxAge : Nat
  maxSize : Nat
  list : List α
  map : List (α × Nat)
  clock : Nat
deriving DecidableEq

namespace TimeLRUSet2

/-- The freshly constructed set. -/
def empty (maxAge maxSize : Nat) : TimeLRUSet2 α :=
  { maxAge := maxAge, maxSize := maxSize, list := [], map := [], clock := 0 }

/-- Method `has` of the second revision: identical touch-on-hit behavior. -/
def has (s : TimeLRUSet2 α) (v : α) : Bool × TimeLRUSet2 α :=
  match mapFind s.map v with
  | some _ =>
      (true, { s with map := mapSet s.map v s.clock
                    , clock := s.clock + 1
                    , list := updateLRU s.list v })
  | none => (false, s)

/-- Method `delete` of the second revision: `const item = this._map.get(value);
item.clear();` — when `value` is absent, `item` is `undefined` and the
`item.clear()` call throws a `TypeError` (`none`); no boolean is returned. -/
def delete (s : TimeLRUSet2 α) (v : α) : Option (TimeLRUSet2 α) :=
  match mapFind s.map v with
  | none => none
  | some _ => some { s with map := mapErase s.map v, list := s.list.erase v }

/-- Method `_deleteLRU` of the second revision: the shifted head is deleted
only when defined (`if (value)`). -/
def deleteLRU (s : TimeLRUSet2 α) : Option (TimeLRUSet2 α) :=
  match s.list with
  | [] => some s
  | h :: t => delete { s with list := t } h

/-- Method `add` of the second revision: capacity check and eviction happen
*before* the membership test, so re-adding a present value while the set is
full still evicts the current LRU head. -/
def add (s : TimeLRUSet2 α) (v : α) : Option (TimeLRUSet2 α) :=
  (if s.list.length = s.maxSize then deleteLRU s else some s).bind fun s1 =>
    let hs := has s1 v
    if hs.1 then some hs.2
    else some { hs.2 with map := mapSet hs.2.map v hs.2.clock
                        , clock := hs.2.clock + 1
                        , list := updateLRU hs.2.list v }

/-- Getter matching `this._map.size`. -/
def size (s : TimeLRUSet2 α) : Nat := s.map.length

end TimeLRUSet2

/-! ## Shared broadcast vocabulary. -/

/-- The `msgId` helper: the hex string `seqno:id` is injective on buffers,
so it is modelled as the pair. -/
def msgId (seqno peerId : Nat) : Nat × Nat := (seqno, peerId)

/-- A neighbor as the engine sees it: only the stable `id` matters; the
transport handle is opaque and never inspected. -/
structure Peer where
  id : Nat
deriving DecidableEq

/-- The four-field envelope.  `fromN` models the `from` field (`from` is a
Lean keyword); it is absent on a freshly built publish packet and stamped
with the engine's own id at fan-out time. -/
structure Packet where
  seqno : Nat
  origin : Nat
  fromN : Option Nat
  data : Nat
deriving DecidableEq

/-- Observable events emitted by either engine revision. -/
inductive Event where
  | packet (p : Packet)
  | send (peerId : Nat)
  | sendError
  | subscribeError
  | lookupError
deriving DecidableEq

/-- Recognizer for local delivery events. -/
def Event.isPacket : Event → Bool
  | Event.packet _ => true
  | _ => false

instance {ε β : Type} [DecidableEq ε] [DecidableEq β] : DecidableEq (Except ε β) := fun x y =>
  match x, y with
  | Except.ok a, Except.ok b =>
      if h : a = b then Decidable.isTrue (by rw [h])
      else Decidable.isFalse (by simp [h])
  | Except.error a, Except.error b =>
      if h : a = b then Decidable.isTrue (by rw [h])
      else Decidable.isFalse (by simp [h])
  | Except.ok _, Except.error _ => Decidable.isFalse (by simp)
  | Except.error _, Except.ok _ => Decidable.isFalse (by simp)

/-! ## Canonical engine (second revision of `broadcast.js`).

The seen cache of this revision is the external npm `lru` package, a
collaborator outside this repository; it is abstracted as the list of cached
keys, with `get` as membership and `set` as insert-if-absent (its recency
bookkeeping, capacity eviction and expiry are not modelled).  The deprecated
pull `lookup` middleware, when configured, is modelled by the outcome its
next call resolves or rejects with (`none` means push mode, no lookup).
Transport sends are asynchronous with success/failure only; the parameter
`sendOk` gives the outcome of each neighbor handoff. -/

namespace Canonical

/-- Mutable fields of a `Broadcast` instance of the canonical revision. -/
structure State where
  id : Nat
  opened : Bool
  peers : List Peer
  seenSeqs : List (Nat × Nat)
  lookup : Option (Except Unit (List Peer))
deriving DecidableEq

/-- Cache read `this._seenSeqs.get(key)` of the external lru, abstracted as
membership. -/
def lruGet (cache : List (Nat × Nat)) (k : Nat × Nat) : Bool := k ∈ cache

/-- Cache write `this._seenSeqs.set(key, true)` of the external lru,
abstracted as insert-if-absent. -/
def lruSet (cache : List (Nat × Nat)) (k : Nat × Nat) : List (Nat × Nat) :=
  if k ∈ cache then cache else cache ++ [k]

/-- The `this._peers.map(...)` send loop of `_publish`, sequentialized in
list order.  Each callback re-checks `this.opened`, skips the author
(`packet.origin.equals(peer.id)`) and any neighbor already marked seen for
`(seqno, peer.id)`; otherwise it marks the neighbor and hands the encoded
packet to the transport, emitting `send` on success and `send-error` on
failure. -/
def fanOut (p : Packet) (sendOk : Nat → Bool) : List Peer → State → State × List Event
  | [], s => (s, [])
  | peer :: rest, s =>
      if s.opened = false then fanOut p sendOk rest s
      else if p.origin = peer.id then fanOut p sendOk rest s
      else if lruGet s.seenSeqs (msgId p.seqno peer.id) then fanOut p sendOk rest s
      else
        let s1 := { s with seenSeqs := lruSet s.seenSeqs (msgId p.seqno peer.id) }
        let ev := if sendOk peer.id then Event.send peer.id else Event.sendError
        let r := fanOut p sendOk rest s1
        (r.1, ev :: r.2)

/-- Method `_publish`: awaits `open()` (auto-open), suppresses the whole
publish when the self token `(seqno, id)` is already cached, otherwise marks
it, runs the deprecated lookup when configured (a rejection is caught by the
outer handler, emitted as `send-error` and rethrown — modelled as
`Except.error`), stamps `from` with the engine id, encodes once and fans
out.  Returns the finalized packet, or `none` for the suppressed early
return. -/
def publishInner (p : Packet) (sendOk : Nat → Bool) (s : State) :
    Except Unit (Option Packet) × State × List Event :=
  let s0 := { s with opened := true }
  let ownerId := msgId p.seqno s0.id
  if lruGet s0.seenSeqs ownerId then (Except.ok none, s0, [])
  else
    let s1 := { s0 with seenSeqs := lruSet s0.seenSeqs ownerId }
    match s1.lookup with
    | some (Except.error _) => (Except.error (), s1, [Event.sendError])
    | some (Except.ok ps) =>
        let s2 := { s1 with peers := ps }
        let p1 := { p with fromN := some s2.id }
        let r := fanOut p1 sendOk s2.peers s2
        (Except.ok (some p1), r.1, r.2)
    | none =>
        let p1 := { p with fromN := some s1.id }
        let r := fanOut p1 sendOk s1.peers s1
        (Except.ok (some p1), r.1, r.2)

/-- Method `publish(data, options)`: builds the packet with the caller's
`seqno`, `origin` set to the engine's own id and `from` still absent, and
routes it through `_publish`. -/
def publish (data seqno : Nat) (sendOk : Nat → Bool) (s : State) :
    Except Unit (Option Packet) × State × List Event :=
  publishInner { seqno := seqno, origin := s.id, fromN := none, data := data } sendOk s

/-- Method `_onPacket`: ignores input while not opened; a decode failure
(`dec = none`, or a packet whose `from` buffer is missing, which trips the
`assert` inside `msgId`) is caught and reported as `subscribe-error`.  A
packet the engine authored (`origin` equals own id) is dropped silently.
Otherwise the immediate sender is marked seen, the self token gates
re-delivery, the `from` peer is looked up in the current snapshot — and its
absence *throws* (`peer not found`), caught as `subscribe-error` — then the
packet is emitted locally and re-published; a rejection of that re-publish
is swallowed. -/
def onPacket (dec : Option Packet) (sendOk : Nat → Bool) (s : State) :
    Option Packet × State × List Event :=
  if s.opened = false then (none, s, [])
  else
    match dec with
    | none => (none, s, [Event.subscribeError])
    | some p =>
      if p.origin = s.id then (none, s, [])
      else
        match p.fromN with
        | none => (none, s, [Event.subscribeError])
        | some f =>
          let s1 := { s with seenSeqs := lruSet s.seenSeqs (msgId p.seqno f) }
          if lruGet s1.seenSeqs (msgId p.seqno s1.id) then (none, s1, [])
          else if (s1.peers.find? fun peer => peer.id = f).isNone then
            (none, s1, [Event.subscribeError])
          else
            let r := publishInner p sendOk s1
            (some p, r.2.1, Event.packet p :: r.2.2)

/-- Iterated delivery of the same decoded packet to the inbound handler,
collecting all emitted events in order. -/
def iterate : Nat → Option Packet → (Nat → Bool) → State → State × List Event
  | 0, _, _, s => (s, [])
  | n + 1, dec, sendOk, s =>
      let r := onPacket dec sendOk s
      let r2 := iterate n dec sendOk r.2.1
      (r2.1, r.2.2 ++ r2.2)

end Canonical

/-! ## Legacy engine (first revision of `broadcast.js`).

This revision owns a real `TimeLRUSet` and acquires peers exclusively by the
injected asynchronous `lookup`, wrapped by `_buildLookup`: a successful
lookup replaces `this._peers`, a rejection is caught inside the wrapper,
emitted as `lookup-error`, and leaves the previous snapshot in place — the
wrapper itself never rejects.  `lookupResult` is the outcome of the next
middleware lookup call.  This revision has no `origin` check on the inbound
path and no author exclusion in the send loop, emits nothing on a successful
send, and its `_onPacket` returns `true` on success, `false` on a caught
error and nothing on a drop. -/

namespace Legacy

/-- Mutable fields of a `Broadcast` instance of the legacy revision. -/
structure State where
  id : Nat
  running : Bool
  peers : List Peer
  seenSeqs : TimeLRUSet (Nat × Nat)
  lookupResult : Except Unit (List Peer)
deriving DecidableEq

/-- The deferred lookup built by `_buildLookup`, run to completion: replaces
the peer snapshot on success, emits `lookup-error` and keeps the snapshot on
failure; never throws. -/
def lookupStep (s : State) : State × List Event :=
  match s.lookupResult with
  | Except.ok ps => ({ s with peers := ps }, [])
  | Except.error _ => (s, [Event.lookupError])

/-- The `this._peers.map(...)` send loop of the legacy `_publish`,
sequentialized in list order.  Each callback re-checks `_running`, skips
neighbors already seen (note: `has` is itself a touch of the cache), marks
the neighbor and sends; a send rejection is caught as `send-error`, a
successful send emits nothing. -/
def fanOut (p : Packet) (sendOk : Nat → Bool) : List Peer → State → State × List Event
  | [], s => (s, [])
  | peer :: rest, s =>
      if s.running = false then fanOut p sendOk rest s
      else
        let hs := s.seenSeqs.has (msgId p.seqno peer.id)
        let s1 := { s with seenSeqs := hs.2 }
        if hs.1 then fanOut p sendOk rest s1
        else
          let s2 := { s1 with seenSeqs := s1.seenSeqs.add (msgId p.seqno peer.id) }
          let r := fanOut p sendOk rest s2
          if sendOk peer.id then (r.1, r.2)
          else (r.1, Event.sendError :: r.2)

/-- Legacy `_publish`: a no-op while not running; marks the self token,
awaits the built lookup, stamps `from`, encodes once and fans out.  The
surrounding try/catch would emit `send-error`, but every step of the model
is total. -/
def publishInner (p : Packet) (sendOk : Nat → Bool) (s : State) : State × List Event :=
  if s.running = false then (s, [])
  else
    let s1 := { s with seenSeqs := s.seenSeqs.add (msgId p.seqno s.id) }
    let lk := lookupStep s1
    let p1 := { p with fromN := some lk.1.id }
    let r := fanOut p1 sendOk lk.1.peers lk.1
    (r.1, lk.2 ++ r.2)

/-- Legacy `publish(data, options)`: warns and returns while not running,
otherwise builds the packet and hands it to `_publish`. -/
def publish (data seqno : Nat) (sendOk : Nat → Bool) (s : State) : State × List Event :=
  if s.running = false then (s, [])
  else publishInner { seqno := seqno, origin := s.id, fromN := none, data := data } sendOk s

/-- Legacy `_onPacket`: ignores input while not running; a decode failure or
a missing `from` buffer (the `assert` inside `msgId`) is caught as
`subscribe-error` and returns `false`.  The immediate sender is marked seen,
the self token gates re-delivery (a hit returns nothing), the `from` peer
lookup is advisory only (`find` may yield `undefined`, nothing is checked),
the packet is emitted locally and re-published, and `true` is returned. -/
def onPacket (dec : Option Packet) (sendOk : Nat → Bool) (s : State) :
    Option Bool × State × List Event :=
  if s.running = false then (none, s, [])
  else
    match dec with
    | none => (some false, s, [Event.subscribeError])
    | some p =>
      match p.fromN with
      | none => (some false, s, [Event.subscribeError])
      | some f =>
        let s1 := { s with seenSeqs := s.seenSeqs.add (msgId p.seqno f) }
        let hs := s1.seenSeqs.has (msgId p.seqno s1.id)
        let s2 := { s1 with seenSeqs := hs.2 }
        if hs.1 then (none, s2, [])
        else
          let r := publishInner p sendOk s2
          (some true, r.1, Event.packet p :: r.2)

end Legacy

/-! ## Lemmas about the association-list model of the JS `Map`. -/

@[simp] theorem keysOf_nil : keysOf ([] : List (α × Nat)) = [] := rfl

@[simp] theorem keysOf_cons (p : α × Nat) (t : List (α × Nat)) :
    keysOf (p :: t) = p.1 :: keysOf t := rfl

theorem keysOf_length (m : List (α × Nat)) : (keysOf m).length = m.length :=
  List.length_map m Prod.fst

theorem mapFind_none_iff {m : List (α × Nat)} {v : α} :
    mapFind m v = none ↔ v ∉ keysOf m := by
  induction m with
  | nil => simp [mapFind]
  | cons p t ih =>
    by_cases h : p.1 = v
    · simp [mapFind, h]
    · simp [mapFind, h, ih, Ne.symm h]

theorem mem_keysOf_of_find {m : List (α × Nat)} {v : α} {c : Nat}
    (h : mapFind m v = some c) : v ∈ keysOf m := by
  by_contra hv
  rw [← mapFind_none_iff] at hv
  rw [hv] at h
  exact Option.noConfusion h

theorem keysOf_mapSet_of_mem {m : List (α × Nat)} {v : α} (c : Nat)
    (h : v ∈ keysOf m) : keysOf (mapSet m v c) = keysOf m := by
  induction m with
  | nil => simp at h
  | cons p t ih =>
    by_cases hp : p.1 = v
    · simp [mapSet, hp]
    · have hv : v ∈ keysOf t := by
        rcases (by simpa using h) with h1 | h2
        · exact absurd h1.symm hp
        · exact h2
      simp [mapSet, hp, ih hv]

theorem mapSet_of_not_mem {m : List (α × Nat)} {v : α} (c : Nat)
    (h : v ∉ keysOf m) : mapSet m v c = m ++ [(v, c)] := by
  induction m with
  | nil => rfl
  | cons p t ih =>
    have hp : ¬p.1 = v := fun he => h (by simp [he])
    have ht : v ∉ keysOf t := fun hm => h (by simp [hm])
    simp [mapSet, hp, ih ht]

theorem mapFind_mapSet_self {m : List (α × Nat)} {v : α} (c : Nat)
    (h : v ∈ keysOf m) : mapFind (mapSet m v c) v = some c := by
  induction m with
  | nil => simp at h
  | cons p t ih =>
    by_cases hp : p.1 = v
    · simp [mapSet, hp, mapFind]
    · have hv : v ∈ keysOf t := by
        rcases (by simpa using h) with h1 | h2
        · exact absurd h1.symm hp
        · exact h2
      simp [mapSet, hp, mapFind, ih hv]

theorem keysOf_mapErase (m : List (α × Nat)) (v : α) :
    keysOf (mapErase m v) = (keysOf m).erase v := by
  induction m with
  | nil => rfl
  | cons p t ih =>
    by_cases hp : p.1 = v
    · simp [mapErase, hp, List.erase_cons_head]
    · rw [mapErase]
      simp only [hp, if_false, keysOf_cons, ih]
      rw [List.erase_cons_tail]
      simp [hp]

/-! ## Lemmas about the first `TimeLRUSet` revision. -/

namespace TimeLRUSet

theorem Inv.keys_nodup {s : TimeLRUSet α} (h : Inv s) : (keys s).Nodup :=
  h.2.nodup_iff.mp h.1

theorem Inv.mem_iff {s : TimeLRUSet α} (h : Inv s) {t : α} : t ∈ s.list ↔ t ∈ keys s :=
  h.2.mem_iff

theorem size_eq_keys_length (s : TimeLRUSet α) : size s = (keys s).length :=
  (keysOf_length s.map).symm

theorem Inv.size_eq {s : TimeLRUSet α} (h : Inv s) : size s = s.list.length := by
  rw [size_eq_keys_length]
  exact h.2.length_eq.symm

theorem has_of_mem {s : TimeLRUSet α} {v : α} (h : v ∈ keys s) :
    has s v = (true, { s with map := mapSet s.map v s.clock
                            , clock := s.clock + 1
                            , list := updateLRU s.list v }) := by
  unfold has
  cases hm : mapFind s.map v with
  | none => exact absurd h (mapFind_none_iff.mp hm)
  | some c => rfl

theorem has_of_not_mem {s : TimeLRUSet α} {v : α} (h : v ∉ keys s) :
    has s v = (false, s) := by
  unfold has
  rw [mapFind_none_iff.mpr h]

theorem has_fst_iff {s : TimeLRUSet α} {v : α} : (has s v).1 = true ↔ v ∈ keys s := by
  by_cases h : v ∈ keys s
  · rw [has_of_mem h]; simpa using h
  · rw [has_of_not_mem h]; simpa using h

theorem keys_has (s : TimeLRUSet α) (v : α) : keys (has s v).2 = keys s := by
  by_cases h : v ∈ keys s
  · rw [has_of_mem h]
    exact keysOf_mapSet_of_mem _ h
  · rw [has_of_not_mem h]

theorem updateLRU_perm {l : List α} {v : α} (h : v ∈ l) : (updateLRU l v).Perm l :=
  (List.perm_append_singleton v (l.erase v)).trans (List.perm_cons_erase h).symm

theorem Inv_has {s : TimeLRUSet α} (hI : Inv s) (v : α) : Inv (has s v).2 := by
  by_cases h : v ∈ keys s
  · rw [has_of_mem h]
    have hvl : v ∈ s.list := hI.mem_iff.mpr h
    have hperm : (updateLRU s.list v).Perm s.list := updateLRU_perm hvl
    refine ⟨hperm.nodup_iff.mpr hI.1, ?_⟩
    show (updateLRU s.list v).Perm (keysOf (mapSet s.map v s.clock))
    rw [keysOf_mapSet_of_mem _ h]
    exact hperm.trans hI.2
  · rw [has_of_not_mem h]; exact hI

theorem delete_of_mem {s : TimeLRUSet α} {v : α} (h : v ∈ keys s) :
    delete s v = ({ s with map := mapErase s.map v, list := s.list.erase v }, true) := by
  unfold delete
  cases hm : mapFind s.map v with
  | none => exact absurd h (mapFind_none_iff.mp hm)
  | some c => rfl

theorem delete_of_not_mem {s : TimeLRUSet α} {v : α} (h : v ∉ keys s) :
    delete s v = (s, false) := by
  unfold delete
  rw [mapFind_none_iff.mpr h]

theorem delete_snd_iff {s : TimeLRUSet α} {v : α} : (delete s v).2 = true ↔ v ∈ keys s := by
  by_cases h : v ∈ keys s
  · rw [delete_of_mem h]; simpa using h
  · rw [delete_of_not_mem h]; simpa using h

theorem Inv_delete {s : TimeLRUSet α} (hI : Inv s) (v : α) : Inv (delete s v).1 := by
  by_cases h : v ∈ keys s
  · rw [delete_of_mem h]
    refine ⟨hI.1.erase v, ?_⟩
    show (s.list.erase v).Perm (keysOf (mapErase s.map v))
    rw [keysOf_mapErase]
    exact hI.2.erase v
  · rw [delete_of_not_mem h]; exact hI

theorem deleteLRU_eq {s : TimeLRUSet α} {hd : α} {t : List α}
    (hI : Inv s) (hl : s.list = hd :: t) :
    deleteLRU s = { s with map := mapErase s.map hd, list := t } := by
  have hmem : hd ∈ keys s := hI.mem_iff.mp (by rw [hl]; exact List.mem_cons_self hd t)
  have hnd : hd ∉ t := by
    have h1 := hI.1
    rw [hl] at h1
    exact (List.nodup_cons.mp h1).1
  have hstep : deleteLRU s = (delete { s with list := t } hd).1 := by
    unfold deleteLRU
    rw [hl]
  have hmem2 : hd ∈ keys ({ s with list := t } : TimeLRUSet α) := hmem
  rw [hstep, delete_of_mem hmem2]
  simp [List.erase_of_not_mem hnd]

theorem Inv_deleteLRU {s : TimeLRUSet α} (hI : Inv s) : Inv (deleteLRU s) := by
  cases hl : s.list with
  | nil => unfold deleteLRU; rw [hl]; exact hI
  | cons hd t =>
    rw [deleteLRU_eq hI hl]
    have h1 := hI.1
    rw [hl] at h1
    refine ⟨(List.nodup_cons.mp h1).2, ?_⟩
    show t.Perm (keysOf (mapErase s.map hd))
    rw [keysOf_mapErase]
    have hp : (hd :: t).Perm (keys s) := by rw [← hl]; exact hI.2
    have := hp.erase hd
    rwa [List.erase_cons_head] at this

theorem keys_deleteLRU_subset {s : TimeLRUSet α} {t : α}
    (h : t ∈ keys (deleteLRU s)) : t ∈ keys s := by
  cases hl : s.list with
  | nil =>
    have hstep : deleteLRU s = s := by unfold deleteLRU; rw [hl]
    rwa [hstep] at h
  | cons hd tl =>
    have hstep : deleteLRU s = (delete { s with list := tl } hd).1 := by
      unfold deleteLRU; rw [hl]
    rw [hstep] at h
    by_cases hm : hd ∈ keys ({ s with list := tl } : TimeLRUSet α)
    · rw [delete_of_mem hm] at h
      have h3 : t ∈ keysOf (mapErase s.map hd) := h
      rw [keysOf_mapErase] at h3
      exact List.mem_of_mem_erase h3
    · rw [delete_of_not_mem hm] at h
      exact h

theorem add_of_mem {s : TimeLRUSet α} {v : α} (h : v ∈ keys s) :
    add s v = (has s v).2 := by
  have := has_of_mem h
  simp [add, this]

theorem insertFreshState_Inv {s : TimeLRUSet α} {v : α} (hI : Inv s) (h : v ∉ keys s) :
    Inv ({ s with map := mapSet s.map v s.clock
                , clock := s.clock + 1
                , list := updateLRU s.list v }) := by
  have hvl : v ∉ s.list := fun hm => h (hI.mem_iff.mp hm)
  constructor
  · show (s.list.erase v ++ [v]).Nodup
    rw [List.erase_of_not_mem hvl]
    exact ((List.perm_append_singleton v s.list).nodup_iff).mpr
      (List.nodup_cons.mpr ⟨hvl, hI.1⟩)
  · show (s.list.erase v ++ [v]).Perm (keysOf (mapSet s.map v s.clock))
    rw [List.erase_of_not_mem hvl, mapSet_of_not_mem _ h]
    show (s.list ++ [v]).Perm (keysOf (s.map ++ [(v, s.clock)]))
    have hk : keysOf (s.map ++ [(v, s.clock)]) = keys s ++ [v] := by
      simp [keysOf, keys]
    rw [hk]
    exact hI.2.append_right [v]

theorem add_of_not_mem_small {s : TimeLRUSet α} {v : α} (h : v ∉ keys s)
    (hcap : ¬s.list.length = s.maxSize) :
    add s v = { s with map := mapSet s.map v s.clock
                     , clock := s.clock + 1
                     , list := updateLRU s.list v } := by
  simp [add, has_of_not_mem h, hcap]

theorem add_of_not_mem_full {s : TimeLRUSet α} {v : α} (h : v ∉ keys s)
    (hcap : s.list.length = s.maxSize) :
    add s v = { deleteLRU s with
                  map := mapSet (deleteLRU s).map v (deleteLRU s).clock
                , clock := (deleteLRU s).clock + 1
                , list := updateLRU (deleteLRU s).list v } := by
  simp [add, has_of_not_mem h, hcap]

theorem Inv_add {s : TimeLRUSet α} (hI : Inv s) (v : α) : Inv (add s v) := by
  by_cases h : v ∈ keys s
  · rw [add_of_mem h]; exact Inv_has hI v
  · by_cases hcap : s.list.length = s.maxSize
    · rw [add_of_not_mem_full h hcap]
      exact insertFreshState_Inv (Inv_deleteLRU hI)
        (fun hm => h (keys_deleteLRU_subset hm))
    · rw [add_of_not_mem_small h hcap]
      exact insertFreshState_Inv hI h

theorem Inv_clear (s : TimeLRUSet α) : Inv (clear s) :=
  ⟨List.nodup_nil, List.Perm.refl _⟩

theorem Inv_onTimeout {s : TimeLRUSet α} (hI : Inv s) (v : α) : Inv (onTimeout s v) :=
  Inv_delete hI v

theorem maxSize_has (s : TimeLRUSet α) (v : α) : (has s v).2.maxSize = s.maxSize := by
  by_cases h : v ∈ keys s
  · rw [has_of_mem h]
  · rw [has_of_not_mem h]

theorem maxSize_deleteLRU (s : TimeLRUSet α) : (deleteLRU s).maxSize = s.maxSize := by
  cases hl : s.list with
  | nil =>
    have hstep : deleteLRU s = s := by unfold deleteLRU; rw [hl]
    rw [hstep]
  | cons hd tl =>
    have hstep : deleteLRU s = (delete { s with list := tl } hd).1 := by
      unfold deleteLRU; rw [hl]
    rw [hstep]
    by_cases hm : hd ∈ keys ({ s with list := tl } : TimeLRUSet α)
    · rw [delete_of_mem hm]
    · rw [delete_of_not_mem hm]

theorem maxSize_add (s : TimeLRUSet α) (v : α) : (add s v).maxSize = s.maxSize := by
  by_cases h : v ∈ keys s
  · rw [add_of_mem h]; exact maxSize_has s v
  · by_cases hcap : s.list.length = s.maxSize
    · rw [add_of_not_mem_full h hcap]
      exact maxSize_deleteLRU s
    · rw [add_of_not_mem_small h hcap]

theorem size_has (s : TimeLRUSet α) (v : α) : size (has s v).2 = size s := by
  rw [size_eq_keys_length, size_eq_keys_length, keys_has]

theorem keys_add_of_mem {s : TimeLRUSet α} {v : α} (h : v ∈ keys s) :
    keys (add s v) = keys s := by
  rw [add_of_mem h, keys_has]

theorem keys_add_small {s : TimeLRUSet α} {v : α} (h : v ∉ keys s)
    (hcap : ¬s.list.length = s.maxSize) :
    keys (add s v) = keys s ++ [v] := by
  rw [add_of_not_mem_small h hcap]
  show keysOf (mapSet s.map v s.clock) = keys s ++ [v]
  rw [mapSet_of_not_mem _ h]
  simp [keysOf, keys]

theorem keys_deleteLRU_cons {s : TimeLRUSet α} {hd : α} {t : List α}
    (hI : Inv s) (hl : s.list = hd :: t) :
    keys (deleteLRU s) = (keys s).erase hd := by
  rw [deleteLRU_eq hI hl]
  show keysOf (mapErase s.map hd) = (keys s).erase hd
  rw [keysOf_mapErase]
  rfl

theorem keys_add_full {s : TimeLRUSet α} {v hd : α} {t : List α}
    (hI : Inv s) (h : v ∉ keys s) (hcap : s.list.length = s.maxSize)
    (hl : s.list = hd :: t) :
    keys (add s v) = (keys s).erase hd ++ [v] := by
  rw [add_of_not_mem_full h hcap]
  have hv2 : v ∉ keys (deleteLRU s) := fun hm => h (keys_deleteLRU_subset hm)
  show keysOf (mapSet (deleteLRU s).map v (deleteLRU s).clock) = (keys s).erase hd ++ [v]
  rw [mapSet_of_not_mem _ hv2]
  have hk : keysOf ((deleteLRU s).map ++ [(v, (deleteLRU s).clock)])
      = keys (deleteLRU s) ++ [v] := by
    simp [keysOf, keys]
  rw [hk, keys_deleteLRU_cons hI hl]

theorem size_add_le {s : TimeLRUSet α} (v : α) (hI : Inv s)
    (hpos : 1 ≤ s.maxSize) (hle : size s ≤ s.maxSize) :
    size (add s v) ≤ s.maxSize := by
  by_cases h : v ∈ keys s
  · rw [size_eq_keys_length, keys_add_of_mem h, ← size_eq_keys_length]
    exact hle
  · by_cases hcap : s.list.length = s.maxSize
    · cases hl : s.list with
      | nil =>
        rw [hl] at hcap
        simp at hcap
        omega
      | cons hd t =>
        have hhd : hd ∈ keys s := hI.mem_iff.mp (by rw [hl]; exact List.mem_cons_self hd t)
        rw [size_eq_keys_length, keys_add_full hI h hcap hl, List.length_append,
          List.length_erase_of_mem hhd]
        have h1 : (keys s).length = size s := (size_eq_keys_length s).symm
        have h2 : size s = s.list.length := hI.size_eq
        simp only [List.length_singleton]
        omega
    · rw [size_eq_keys_length, keys_add_small h hcap, List.length_append]
      have h1 : (keys s).length = size s := (size_eq_keys_length s).symm
      have h2 : size s = s.list.length := hI.size_eq
      simp only [List.length_singleton]
      omega

theorem add_full_evicts {s : TimeLRUSet α} {v hd : α} {t : List α}
    (hI : Inv s) (hv : v ∉ keys s) (hl : s.list = hd :: t)
    (hcap : s.list.length = s.maxSize) :
    size (add s v) = s.maxSize ∧ keys (add s v) = (keys s).erase hd ++ [v] := by
  have hk := keys_add_full hI hv hcap hl
  have hhd : hd ∈ keys s := hI.mem_iff.mp (by rw [hl]; exact List.mem_cons_self hd t)
  refine ⟨?_, hk⟩
  rw [size_eq_keys_length, hk, List.length_append, List.length_erase_of_mem hhd]
  have h1 : (keys s).length = size s := (size_eq_keys_length s).symm
  have h2 : size s = s.list.length := hI.size_eq
  have h3 : 1 ≤ s.list.length := by rw [hl]; simp
  simp only [List.length_singleton]
  omega

theorem foldl_add_bound (tokens : List α) :
    ∀ s : TimeLRUSet α, Inv s → 1 ≤ s.maxSize → size s ≤ s.maxSize →
      Inv (tokens.foldl add s) ∧ (tokens.foldl add s).maxSize = s.maxSize ∧
      size (tokens.foldl add s) ≤ s.maxSize := by
  induction tokens with
  | nil => intro s hI hpos hle; exact ⟨hI, rfl, hle⟩
  | cons v rest ih =>
    intro s hI hpos hle
    have h1 := Inv_add hI v
    have h2 := maxSize_add s v
    have h3 := size_add_le v hI hpos hle
    have hrec := ih (add s v) h1 (by rw [h2]; exact hpos) (by rw [h2]; exact h3)
    refine ⟨hrec.1, ?_, ?_⟩
    · show (rest.foldl add (add s v)).maxSize = s.maxSize
      rw [hrec.2.1, h2]
    · show size (rest.foldl add (add s v)) ≤ s.maxSize
      rw [← h2]
      exact hrec.2.2

theorem Inv_empty (maxAge maxSize : Nat) : Inv (empty maxAge maxSize : TimeLRUSet α) :=
  ⟨List.nodup_nil, List.Perm.refl _⟩

theorem touch_protected {s : TimeLRUSet α} {v : α} (hI : Inv s) (hv : v ∈ keys s) :
    ∀ w : α, w ∉ keys (has s v).2 → (has s v).2.list.length = s.maxSize →
      2 ≤ s.list.length → v ∈ keys (add (has s v).2 w) := by
  intro w hw hcap hlen
  have hvl : v ∈ s.list := hI.mem_iff.mpr hv
  have hITouch : Inv (has s v).2 := Inv_has hI v
  have hlist : (has s v).2.list = s.list.erase v ++ [v] := by
    rw [has_of_mem hv]
    rfl
  have hel : 1 ≤ (s.list.erase v).length := by
    rw [List.length_erase_of_mem hvl]
    omega
  obtain ⟨hd, t2, he⟩ : ∃ hd t2, s.list.erase v = hd :: t2 := by
    cases hc : s.list.erase v with
    | nil => rw [hc] at hel; simp at hel
    | cons a b => exact ⟨a, b, rfl⟩
  have hhd : hd ∈ s.list.erase v := by rw [he]; exact List.mem_cons_self hd t2
  have hv_not : v ∉ s.list.erase v := hI.1.not_mem_erase
  have hne : ¬v = hd := fun hvh => hv_not (hvh ▸ hhd)
  have hl2 : (has s v).2.list = hd :: (t2 ++ [v]) := by
    rw [hlist, he]
    rfl
  have hcap2 : (has s v).2.list.length = (has s v).2.maxSize := by
    rw [maxSize_has]
    exact hcap
  have hk := keys_add_full hITouch hw hcap2 hl2
  rw [hk]
  apply List.mem_append_left
  rw [keys_has]
  exact (List.mem_erase_of_ne hne).mpr hv

end TimeLRUSet

/-! ## Lemmas about the canonical engine. -/

namespace Canonical

theorem lruGet_eq_true_iff {c : List (Nat × Nat)} {k : Nat × Nat} :
    lruGet c k = true ↔ k ∈ c := by
  simp [lruGet]

theorem mem_lruSet_iff {c : List (Nat × Nat)} {k k' : Nat × Nat} :
    k' ∈ lruSet c k ↔ k' ∈ c ∨ k' = k := by
  unfold lruSet
  by_cases h : k ∈ c
  · rw [if_pos h]
    constructor
    · exact Or.inl
    · rintro (h1 | rfl)
      · exact h1
      · exact h
  · rw [if_neg h]
    simp

theorem fanOut_fields (p : Packet) (ok : Nat → Bool) :
    ∀ (peers : List Peer) (s : State),
      (fanOut p ok peers s).1.opened = s.opened ∧ (fanOut p ok peers s).1.id = s.id ∧
      (fanOut p ok peers s).1.peers = s.peers ∧ (fanOut p ok peers s).1.lookup = s.lookup := by
  intro peers
  induction peers with
  | nil => intro s; exact ⟨rfl, rfl, rfl, rfl⟩
  | cons peer rest ih =>
    intro s
    show (fanOut p ok (peer :: rest) s).1.opened = s.opened ∧ _
    unfold fanOut
    by_cases h1 : s.opened = false
    · rw [if_pos h1]; exact ih s
    · rw [if_neg h1]
      by_cases h2 : p.origin = peer.id
      · rw [if_pos h2]; exact ih s
      · rw [if_neg h2]
        by_cases h3 : lruGet s.seenSeqs (msgId p.seqno peer.id) = true
        · rw [if_pos h3]; exact ih s
        · rw [if_neg h3]
          exact ih { s with seenSeqs := lruSet s.seenSeqs (msgId p.seqno peer.id) }

theorem fanOut_seen_mono (p : Packet) (ok : Nat → Bool) {k : Nat × Nat} :
    ∀ (peers : List Peer) (s : State), k ∈ s.seenSeqs → k ∈ (fanOut p ok peers s).1.seenSeqs := by
  intro peers
  induction peers with
  | nil => intro s h; exact h
  | cons peer rest ih =>
    intro s h
    unfold fanOut
    by_cases h1 : s.opened = false
    · rw [if_pos h1]; exact ih s h
    · rw [if_neg h1]
      by_cases h2 : p.origin = peer.id
      · rw [if_pos h2]; exact ih s h
      · rw [if_neg h2]
        by_cases h3 : lruGet s.seenSeqs (msgId p.seqno peer.id) = true
        · rw [if_pos h3]; exact ih s h
        · rw [if_neg h3]
          exact ih _ (mem_lruSet_iff.mpr (Or.inl h))

theorem fanOut_no_packet (p : Packet) (ok : Nat → Bool) :
    ∀ (peers : List Peer) (s : State) (e : Event),
      e ∈ (fanOut p ok peers s).2 → e.isPacket = false := by
  intro peers
  induction peers with
  | nil => intro s e h; simp [fanOut] at h
  | cons peer rest ih =>
    intro s e h
    unfold fanOut at h
    by_cases h1 : s.opened = false
    · rw [if_pos h1] at h; exact ih s e h
    · rw [if_neg h1] at h
      by_cases h2 : p.origin = peer.id
      · rw [if_pos h2] at h; exact ih s e h
      · rw [if_neg h2] at h
        by_cases h3 : lruGet s.seenSeqs (msgId p.seqno peer.id) = true
        · rw [if_pos h3] at h; exact ih s e h
        · rw [if_neg h3] at h
          simp only [List.mem_cons] at h
          rcases h with h | h
          · subst h
            by_cases h4 : ok peer.id = true <;> simp [h4, Event.isPacket]
          · exact ih _ e h

theorem publishInner_opened (p : Packet) (ok : Nat → Bool) (s : State) :
    (publishInner p ok s).2.1.opened = true := by
  unfold publishInner
  by_cases h : lruGet ({ s with opened := true } : State).seenSeqs (msgId p.seqno s.id) = true
  · rw [if_pos h]
  · rw [if_neg h]
    cases hl : ({ s with opened := true } : State).lookup with
    | none => exact (fanOut_fields _ ok _ _).1
    | some r =>
      cases r with
      | error e => rfl
      | ok ps => exact (fanOut_fields _ ok _ _).1

theorem publishInner_id (p : Packet) (ok : Nat → Bool) (s : State) :
    (publishInner p ok s).2.1.id = s.id := by
  unfold publishInner
  by_cases h : lruGet ({ s with opened := true } : State).seenSeqs (msgId p.seqno s.id) = true
  · rw [if_pos h]
  · rw [if_neg h]
    cases hl : ({ s with opened := true } : State).lookup with
    | none => exact (fanOut_fields _ ok _ _).2.1
    | some r =>
      cases r with
      | error e => rfl
      | ok ps => exact (fanOut_fields _ ok _ _).2.1

theorem publishInner_seen_self (p : Packet) (ok : Nat → Bool) (s : State) :
    msgId p.seqno s.id ∈ (publishInner p ok s).2.1.seenSeqs := by
  unfold publishInner
  by_cases hh : lruGet ({ s with opened := true } : State).seenSeqs (msgId p.seqno s.id) = true
  · rw [if_pos hh]
    exact lruGet_eq_true_iff.mp hh
  · rw [if_neg hh]
    have hmem : msgId p.seqno s.id
        ∈ lruSet s.seenSeqs (msgId p.seqno s.id) := mem_lruSet_iff.mpr (Or.inr rfl)
    cases hl : ({ s with opened := true } : State).lookup with
    | none => exact fanOut_seen_mono _ ok _ _ hmem
    | some r =>
      cases r with
      | error e => exact hmem
      | ok ps => exact fanOut_seen_mono _ ok _ _ hmem

theorem publishInner_no_packet (p : Packet) (ok : Nat → Bool) (s : State) (e : Event)
    (h : e ∈ (publishInner p ok s).2.2) : e.isPacket = false := by
  unfold publishInner at h
  by_cases hh : lruGet ({ s with opened := true } : State).seenSeqs (msgId p.seqno s.id) = true
  · rw [if_pos hh] at h
    simp at h
  · rw [if_neg hh] at h
    cases hl : ({ s with opened := true } : State).lookup with
    | none =>
      rw [hl] at h
      exact fanOut_no_packet _ ok _ _ e h
    | some r =>
      rw [hl] at h
      cases r with
      | error u => simp at h; subst h; rfl
      | ok ps => exact fanOut_no_packet _ ok _ _ e h

theorem onPacket_origin_drop {s : State} {p : Packet} (ok : Nat → Bool)
    (hop : s.opened = true) (ho : p.origin = s.id) :
    onPacket (some p) ok s = (none, s, []) := by
  simp [onPacket, hop, ho]

theorem onPacket_drop {s : State} {p : Packet} {f : Nat} (ok : Nat → Bool)
    (hop : s.opened = true) (hf : p.fromN = some f) (ho : ¬p.origin = s.id)
    (hseen : msgId p.seqno s.id ∈ s.seenSeqs) :
    onPacket (some p) ok s =
      (none, { s with seenSeqs := lruSet s.seenSeqs (msgId p.seqno f) }, []) := by
  have hget : lruGet (lruSet s.seenSeqs (msgId p.seqno f)) (msgId p.seqno s.id) = true :=
    lruGet_eq_true_iff.mpr (mem_lruSet_iff.mpr (Or.inl hseen))
  simp [onPacket, hop, ho, hf, hget]

theorem onPacket_deliver {s : State} {p : Packet} {f : Nat} (ok : Nat → Bool)
    (hop : s.opened = true) (hf : p.fromN = some f) (ho : ¬p.origin = s.id)
    (hfresh : ¬msgId p.seqno s.id ∈ s.seenSeqs) (hne : ¬f = s.id)
    (hpeer : ¬(s.peers.find? fun peer => peer.id = f) = none) :
    onPacket (some p) ok s =
      (some p,
       (publishInner p ok { s with seenSeqs := lruSet s.seenSeqs (msgId p.seqno f) }).2.1,
       Event.packet p ::
         (publishInner p ok { s with seenSeqs := lruSet s.seenSeqs (msgId p.seqno f) }).2.2) := by
  have hget : ¬lruGet (lruSet s.seenSeqs (msgId p.seqno f)) (msgId p.seqno s.id) = true := by
    rw [lruGet_eq_true_iff, mem_lruSet_iff]
    rintro (h | h)
    · exact hfresh h
    · exact hne (by simpa [msgId, Prod.ext_iff] using h.symm)
  have hfind : ((({ s with seenSeqs := lruSet s.seenSeqs (msgId p.seqno f) } : State).peers.find?
      fun peer => peer.id = f)).isNone = false := by
    show ((s.peers.find? fun peer => peer.id = f)).isNone = false
    cases hn : s.peers.find? fun peer => peer.id = f with
    | none => exact absurd hn hpeer
    | some q => rfl
  simp [onPacket, hop, ho, hf, hget, hfind]

theorem onPacket_peer_missing {s : State} {p : Packet} {f : Nat} (ok : Nat → Bool)
    (hop : s.opened = true) (hf : p.fromN = some f) (ho : ¬p.origin = s.id)
    (hfresh : ¬msgId p.seqno s.id ∈ s.seenSeqs) (hne : ¬f = s.id)
    (hpeer : (s.peers.find? fun peer => peer.id = f) = none) :
    onPacket (some p) ok s =
      (none, { s with seenSeqs := lruSet s.seenSeqs (msgId p.seqno f) },
       [Event.subscribeError]) := by
  have hget : ¬lruGet (lruSet s.seenSeqs (msgId p.seqno f)) (msgId p.seqno s.id) = true := by
    rw [lruGet_eq_true_iff, mem_lruSet_iff]
    rintro (h | h)
    · exact hfresh h
    · exact hne (by simpa [msgId, Prod.ext_iff] using h.symm)
  have hfind : ((({ s with seenSeqs := lruSet s.seenSeqs (msgId p.seqno f) } : State).peers.find?
      fun peer => peer.id = f)).isNone = true := by
    show ((s.peers.find? fun peer => peer.id = f)).isNone = true
    rw [hpeer]
    rfl
  simp [onPacket, hop, ho, hf, hget, hfind]

theorem deliver_post_facts {s : State} {p : Packet} {f : Nat} (ok : Nat → Bool)
    (hop : s.opened = true) (hf : p.fromN = some f) (ho : ¬p.origin = s.id)
    (hfresh : ¬msgId p.seqno s.id ∈ s.seenSeqs) (hne : ¬f = s.id)
    (hpeer : ¬(s.peers.find? fun peer => peer.id = f) = none) :
    (onPacket (some p) ok s).2.1.opened = true ∧
    (onPacket (some p) ok s).2.1.id = s.id ∧
    msgId p.seqno s.id ∈ (onPacket (some p) ok s).2.1.seenSeqs ∧
    (onPacket (some p) ok s).2.2.countP Event.isPacket = 1 := by
  have hstep := onPacket_deliver ok hop hf ho hfresh hne hpeer
  rw [hstep]
  refine ⟨publishInner_opened _ _ _, ?_, ?_, ?_⟩
  · exact publishInner_id p ok { s with seenSeqs := lruSet s.seenSeqs (msgId p.seqno f) }
  · exact publishInner_seen_self p ok { s with seenSeqs := lruSet s.seenSeqs (msgId p.seqno f) }
  · have hz : ((publishInner p ok
        { s with seenSeqs := lruSet s.seenSeqs (msgId p.seqno f) }).2.2).countP
          Event.isPacket = 0 := by
      rw [List.countP_eq_zero]
      intro e he
      simp [publishInner_no_packet p ok _ e he]
    simp [List.countP_cons, hz, Event.isPacket]

theorem iterate_succ (n : Nat) (dec : Option Packet) (ok : Nat → Bool) (s : State) :
    iterate (n + 1) dec ok s
      = ((iterate n dec ok (onPacket dec ok s).2.1).1,
         (onPacket dec ok s).2.2 ++ (iterate n dec ok (onPacket dec ok s).2.1).2) := rfl

theorem iterate_drop {p : Packet} {f : Nat} (ok : Nat → Bool) (hf : p.fromN = some f) :
    ∀ (n : Nat) (s : State), s.opened = true → ¬p.origin = s.id →
      msgId p.seqno s.id ∈ s.seenSeqs →
      (iterate n (some p) ok s).2 = [] ∧
      (iterate n (some p) ok s).1.opened = true ∧
      (iterate n (some p) ok s).1.id = s.id ∧
      msgId p.seqno s.id ∈ (iterate n (some p) ok s).1.seenSeqs := by
  intro n
  induction n with
  | zero => intro s hop ho hseen; exact ⟨rfl, hop, rfl, hseen⟩
  | succ m ih =>
    intro s hop ho hseen
    have hstep := onPacket_drop ok hop hf ho hseen
    have hmem : msgId p.seqno s.id ∈ lruSet s.seenSeqs (msgId p.seqno f) :=
      mem_lruSet_iff.mpr (Or.inl hseen)
    have hrec := ih { s with seenSeqs := lruSet s.seenSeqs (msgId p.seqno f) } hop ho hmem
    rw [iterate_succ, hstep]
    simpa using hrec

end Canonical

/-! ## Lemmas about the legacy engine. -/

namespace Legacy

theorem fanOut_peers (p : Packet) (ok : Nat → Bool) :
    ∀ (peers : List Peer) (s : State), (fanOut p ok peers s).1.peers = s.peers := by
  intro peers
  induction peers with
  | nil => intro s; rfl
  | cons peer rest ih =>
    intro s
    unfold fanOut
    by_cases h1 : s.running = false
    · rw [if_pos h1]; exact ih s
    · rw [if_neg h1]
      by_cases h2 : (s.seenSeqs.has (msgId p.seqno peer.id)).1 = true
      · rw [if_pos h2]
        exact ih { s with seenSeqs := (s.seenSeqs.has (msgId p.seqno peer.id)).2 }
      · rw [if_neg h2]
        by_cases h3 : ok peer.id = true
        · rw [if_pos h3]
          exact ih _
        · rw [if_neg h3]
          exact ih _

theorem onPacket_drop_seen {s : State} {p : Packet} {f : Nat} (ok : Nat → Bool)
    (hrun : s.running = true) (hf : p.fromN = some f)
    (hseen : msgId p.seqno s.id ∈ TimeLRUSet.keys (s.seenSeqs.add (msgId p.seqno f))) :
    (onPacket (some p) ok s).1 = none ∧ (onPacket (some p) ok s).2.2 = [] := by
  have hh := TimeLRUSet.has_of_mem hseen
  simp [onPacket, hrun, hf, hh]

theorem onPacket_deliver_fresh {s : State} {p : Packet} {f : Nat} (ok : Nat → Bool)
    (hrun : s.running = true) (hf : p.fromN = some f)
    (hfresh : ¬msgId p.seqno s.id ∈ TimeLRUSet.keys (s.seenSeqs.add (msgId p.seqno f))) :
    (onPacket (some p) ok s).1 = some true ∧
    (onPacket (some p) ok s).2.2.head? = some (Event.packet p) := by
  have hh := TimeLRUSet.has_of_not_mem hfresh
  simp [onPacket, hrun, hf, hh]

theorem publish_lookup_error {s : State} (data seqno : Nat) (ok : Nat → Bool)
    (hrun : s.running = true) (herr : s.lookupResult = Except.error ()) :
    Event.lookupError ∈ (publish data seqno ok s).2 ∧
    (publish data seqno ok s).1.peers = s.peers := by
  have hfan := fanOut_peers { seqno := seqno, origin := s.id, fromN := some s.id, data := data }
  simp only [publish, publishInner, lookupStep, hrun, herr]
  simp only [Bool.true_eq_false, if_false]
  constructor
  · simp
  · rw [hfan _ _]

end Legacy

/-! ## Claim theorems. -/

/-- Claim C1: while the engine is open, invoking the canonical inbound
handler with the same encoded packet N ≥ 1 times emits exactly one local
`packet` delivery event and triggers the forward fan-out at most once — the
complete event trace of N invocations equals that of the first invocation
alone — and every invocation after the first is dropped by the
`(seqno, engineId)` self-token check, whose token is in the seen cache from
the first invocation on.  The hypotheses select the delivery scenario the
claim quantifies over: the bytes decode to `p`, the packet carries a `from`
stamp different from this engine, was not authored by this engine, its self
token is not yet cached, and the sender resolves in the peer snapshot. -/
theorem C1_dedup_idempotent (s : Canonical.State) (p : Packet) (f : Nat) (ok : Nat → Bool)
    (hop : s.opened = true) (hf : p.fromN = some f) (ho : ¬p.origin = s.id)
    (hne : ¬f = s.id) (hfresh : ¬msgId p.seqno s.id ∈ s.seenSeqs)
    (hpeer : ¬(s.peers.find? fun peer => peer.id = f) = none) :
    (∀ n : Nat, (Canonical.iterate (n + 1) (some p) ok s).2
        = (Canonical.iterate 1 (some p) ok s).2) ∧
    (Canonical.iterate 1 (some p) ok s).2.countP Event.isPacket = 1 ∧
    msgId p.seqno s.id ∈ (Canonical.iterate 1 (some p) ok s).1.seenSeqs := by
  have hfacts := Canonical.deliver_post_facts ok hop hf ho hfresh hne hpeer
  have hdrop : ∀ n,
      (Canonical.iterate n (some p) ok (Canonical.onPacket (some p) ok s).2.1).2 = [] := by
    intro n
    refine (Canonical.iterate_drop ok hf n _ hfacts.1 ?_ ?_).1
    · rw [hfacts.2.1]; exact ho
    · rw [hfacts.2.1]; exact hfacts.2.2.1
  refine ⟨?_, ?_, ?_⟩
  · intro n
    rw [Canonical.iterate_succ n, Canonical.iterate_succ 0, hdrop n]
    simp [Canonical.iterate]
  · rw [Canonical.iterate_succ 0]
    simpa [Canonical.iterate] using hfacts.2.2.2
  · rw [Canonical.iterate_succ 0]
    simpa [Canonical.iterate] using hfacts.2.2.1

/-- Witness for C1: a concrete open engine (id 0, neighbor 1), a packet
authored by node 2 and relayed by node 1, delivered three times. -/
theorem C1_dedup_idempotent_witness :
    ((⟨0, true, [⟨1⟩], [], none⟩ : Canonical.State).opened = true
      ∧ (⟨5, 2, some 1, 9⟩ : Packet).fromN = some 1)
    ∧ (Canonical.iterate 3 (some ⟨5, 2, some 1, 9⟩) (fun _ => true)
          ⟨0, true, [⟨1⟩], [], none⟩).2
        = (Canonical.iterate 1 (some ⟨5, 2, some 1, 9⟩) (fun _ => true)
          ⟨0, true, [⟨1⟩], [], none⟩).2
    ∧ (Canonical.iterate 1 (some ⟨5, 2, some 1, 9⟩) (fun _ => true)
          ⟨0, true, [⟨1⟩], [], none⟩).2.countP Event.isPacket = 1 :=
  ⟨⟨rfl, rfl⟩,
   (C1_dedup_idempotent _ _ 1 _ rfl rfl (by decide) (by decide) (by decide) (by decide)).1 2,
   (C1_dedup_idempotent _ _ 1 _ rfl rfl (by decide) (by decide) (by decide) (by decide)).2.1⟩

/-- Claim C2 counterexample: the legacy inbound handler has no origin check.
With the self token `(seqno, own id)` absent from the seen cache (as after
expiry/eviction, or for a forged packet), a packet whose `origin` equals the
engine's own id is delivered to local listeners and re-published, refuting
"no local packet event is emitted" for this revision of `_onPacket`. -/
theorem C2_counterexample :
    Event.packet ⟨5, 0, some 1, 7⟩ ∈
      (Legacy.onPacket (some ⟨5, 0, some 1, 7⟩) (fun _ => true)
        ⟨0, true, [⟨1⟩], TimeLRUSet.empty 10000 100, Except.ok [⟨1⟩]⟩).2.2 := by
  decide

/-- Claim C2 amended: in the canonical inbound handler, every packet whose
`origin` equals the engine's own id is dropped unconditionally — no local
delivery event, no forward fan-out, no state change.  (The legacy handler
lacks the origin check and suppresses such packets only while the
`(seqno, own id)` self token is still cached; see the counterexample.) -/
theorem C2_origin_drop (s : Canonical.State) (p : Packet) (ok : Nat → Bool)
    (hop : s.opened = true) (ho : p.origin = s.id) :
    Canonical.onPacket (some p) ok s = (none, s, []) :=
  Canonical.onPacket_origin_drop ok hop ho

/-- Witness for C2 at a concrete state and self-authored packet. -/
theorem C2_origin_drop_witness :
    ((⟨0, true, [⟨1⟩], [], none⟩ : Canonical.State).opened = true
      ∧ (⟨5, 0, some 1, 7⟩ : Packet).origin = (⟨0, true, [⟨1⟩], [], none⟩ : Canonical.State).id)
    ∧ Canonical.onPacket (some ⟨5, 0, some 1, 7⟩) (fun _ => true) ⟨0, true, [⟨1⟩], [], none⟩
        = (none, ⟨0, true, [⟨1⟩], [], none⟩, []) :=
  ⟨⟨rfl, rfl⟩, C2_origin_drop _ _ _ rfl rfl⟩

/-- Claim C3 counterexample: in the canonical inbound handler, a packet
whose `from` id matches no peer in the snapshot is neither delivered nor
forwarded: the `peer not found` error is thrown before the `packet` event,
caught, and reported as `subscribe-error`; the only state change is the
`(seqno, from)` mark.  This refutes "still emits the local packet delivery
event and still forwards". -/
theorem C3_counterexample :
    Canonical.onPacket (some ⟨5, 1, some 2, 9⟩) (fun _ => true) ⟨0, true, [], [], none⟩
      = (none, ⟨0, true, [], [(5, 2)], none⟩, [Event.subscribeError]) := by
  decide

/-- Claim C3 amended: when no peer in the current snapshot has an id equal
to the packet's `from` field, the canonical engine reports the failed lookup
as a non-fatal `subscribe-error` event and suppresses both the local
delivery and the forward fan-out of that packet; only the `(seqno, from)`
mark is retained.  The peer lookup is gating for that packet, not advisory
(the legacy handler, by contrast, proceeds without reporting). -/
theorem C3_peer_missing (s : Canonical.State) (p : Packet) (f : Nat) (ok : Nat → Bool)
    (hop : s.opened = true) (hf : p.fromN = some f) (ho : ¬p.origin = s.id)
    (hfresh : ¬msgId p.seqno s.id ∈ s.seenSeqs) (hne : ¬f = s.id)
    (hpeer : (s.peers.find? fun peer => peer.id = f) = none) :
    Canonical.onPacket (some p) ok s
      = (none, { s with seenSeqs := Canonical.lruSet s.seenSeqs (msgId p.seqno f) },
         [Event.subscribeError]) :=
  Canonical.onPacket_peer_missing ok hop hf ho hfresh hne hpeer

/-- Witness for C3 at a concrete state whose snapshot holds only peer 3. -/
theorem C3_peer_missing_witness :
    ((⟨0, true, [⟨3⟩], [], none⟩ : Canonical.State).opened = true
      ∧ ((⟨0, true, [⟨3⟩], [], none⟩ : Canonical.State).peers.find?
          fun peer => peer.id = 2) = none)
    ∧ Canonical.onPacket (some ⟨5, 1, some 2, 9⟩) (fun _ => true) ⟨0, true, [⟨3⟩], [], none⟩
        = (none, ⟨0, true, [⟨3⟩], [(5, 2)], none⟩, [Event.subscribeError]) :=
  ⟨⟨rfl, by decide⟩,
   C3_peer_missing _ _ 2 _ rfl rfl (by decide) (by decide) (by decide) (by decide)⟩

/-- Claim C4 counterexample: a `TimeLRUSet` constructed with capacity
`maxSize = 0` exceeds its capacity on the very first `add`: `_deleteLRU` on
the empty list evicts nothing, the insert still happens, and the size grows
past `maxSize` (and keeps growing, since the strict-equality capacity test
`_list.length === _maxSize` never fires again). -/
theorem C4_counterexample :
    TimeLRUSet.size ((TimeLRUSet.empty 10000 0 : TimeLRUSet Nat).add 1)
      > ((TimeLRUSet.empty 10000 0 : TimeLRUSet Nat).add 1).maxSize := by
  decide

/-- Claim C4 amended: for every capacity `maxSize ≥ 1`, the size of a
`TimeLRUSet` never exceeds `maxSize` along any sequence of `add` calls from
construction; and an `add` of a novel token to a set holding exactly
`maxSize` entries first evicts exactly the single least-recently-touched
token (the head of the LRU list), leaving the size at `maxSize` with the new
token present.  (The degenerate `maxSize = 0` is excluded — there the bound
fails, see the counterexample.) -/
theorem C4_capacity_bound (maxAge maxSize : Nat) (hpos : 1 ≤ maxSize)
    (tokens : List Nat) :
    TimeLRUSet.size (tokens.foldl TimeLRUSet.add
        (TimeLRUSet.empty maxAge maxSize : TimeLRUSet Nat)) ≤ maxSize
    ∧ (∀ (s : TimeLRUSet Nat) (v hd : Nat) (t : List Nat),
        TimeLRUSet.Inv s → v ∉ TimeLRUSet.keys s → s.list = hd :: t →
        s.list.length = s.maxSize →
        TimeLRUSet.size (s.add v) = s.maxSize ∧
        TimeLRUSet.keys (s.add v) = (TimeLRUSet.keys s).erase hd ++ [v]) := by
  constructor
  · exact (TimeLRUSet.foldl_add_bound tokens _ (TimeLRUSet.Inv_empty _ _) hpos
      (by simp [TimeLRUSet.size, TimeLRUSet.empty])).2.2
  · intro s v hd t hI hv hl hcap
    exact TimeLRUSet.add_full_evicts hI hv hl hcap

/-- Witness for C4 at capacity 2 with three distinct tokens. -/
theorem C4_capacity_bound_witness :
    1 ≤ 2
    ∧ TimeLRUSet.size ([10, 11, 12].foldl TimeLRUSet.add
        (TimeLRUSet.empty 10000 2 : TimeLRUSet Nat)) ≤ 2 :=
  ⟨by decide, (C4_capacity_bound 10000 2 (by decide) [10, 11, 12]).1⟩

/-- Claim C5 counterexample: in the second `TimeLRUSet` revision, `add`
performs the capacity check and eviction *before* the membership test.
With capacity 2 and entries 1 and 2 (LRU head 1), re-adding the present
token 2 first evicts token 1 and then merely touches 2: the set drops from
size 2 to size 1, refuting "a repeated add leaves membership and size
unchanged". -/
theorem C5_counterexample :
    ((((TimeLRUSet2.empty 10000 2 : TimeLRUSet2 Nat).add 1).bind
        fun s => s.add 2).map TimeLRUSet2.size = some 2)
    ∧ (((((TimeLRUSet2.empty 10000 2 : TimeLRUSet2 Nat).add 1).bind
        fun s => s.add 2).bind fun s => s.add 2).map TimeLRUSet2.size = some 1) := by
  decide

/-- Claim C5 amended: in the first (documented) `TimeLRUSet` revision, for a
token already present, `has` and a repeated `add` coincide and leave
membership and size unchanged, move that token to the most-recently-used end
of the LRU order, and restamp its expiry timer at the current instant; the
next capacity overflow evicts the head of the LRU order, which — whenever at
least two entries are present — is not the touched token.  (In the second
revision a repeated `add` at capacity can evict another entry, see the
counterexample.) -/
theorem C5_touch_refreshes (s : TimeLRUSet Nat) (v : Nat)
    (hI : TimeLRUSet.Inv s) (hv : v ∈ TimeLRUSet.keys s) :
    s.add v = (s.has v).2
    ∧ TimeLRUSet.keys (s.has v).2 = TimeLRUSet.keys s
    ∧ TimeLRUSet.size (s.has v).2 = TimeLRUSet.size s
    ∧ (s.has v).2.list.getLast? = some v
    ∧ mapFind (s.has v).2.map v = some s.clock
    ∧ (s.has v).2.clock = s.clock + 1
    ∧ (∀ w : Nat, w ∉ TimeLRUSet.keys (s.has v).2 →
        (s.has v).2.list.length = s.maxSize → 2 ≤ s.list.length →
        v ∈ TimeLRUSet.keys ((s.has v).2.add w)) := by
  have hvl : v ∈ s.list := hI.mem_iff.mpr hv
  refine ⟨TimeLRUSet.add_of_mem hv, TimeLRUSet.keys_has s v, TimeLRUSet.size_has s v,
    ?_, ?_, ?_, TimeLRUSet.touch_protected hI hv⟩
  · rw [TimeLRUSet.has_of_mem hv]
    show (updateLRU s.list v).getLast? = some v
    exact List.getLast?_concat _
  · rw [TimeLRUSet.has_of_mem hv]
    exact mapFind_mapSet_self s.clock hv
  · rw [TimeLRUSet.has_of_mem hv]

/-- Witness for C5: a two-entry set where token 21 was inserted before
token 22, then 21 is touched. -/
theorem C5_touch_refreshes_witness :
    TimeLRUSet.Inv ((TimeLRUSet.empty 10000 2 : TimeLRUSet Nat).add 21 |>.add 22)
    ∧ 21 ∈ TimeLRUSet.keys ((TimeLRUSet.empty 10000 2 : TimeLRUSet Nat).add 21 |>.add 22)
    ∧ (((TimeLRUSet.empty 10000 2 : TimeLRUSet Nat).add 21 |>.add 22).has 21).2.list.getLast?
        = some 21 :=
  ⟨by decide, by decide,
   (C5_touch_refreshes _ 21 (by decide) (by decide)).2.2.2.1⟩

/-- Claim C6 (code bug in the second `TimeLRUSet` revision): that revision's
`delete` reads the entry and calls `item.clear()` without any guard, so
deleting an absent token dereferences `undefined` and throws a `TypeError`
(modelled as `none`) instead of returning `false`.  The first revision — the
behavior the claim, the spec and the repository's `delete and clear` test
(`expect(timeSet.delete('bar')).toBe(false)`) describe — is total and
returns the presence flag, leaving the state untouched on a miss. -/
theorem C6_delete_absent_throws :
    (TimeLRUSet2.empty 10000 2 : TimeLRUSet2 Nat).delete 1 = none
    ∧ (TimeLRUSet.empty 10000 2 : TimeLRUSet Nat).delete 1
        = ((TimeLRUSet.empty 10000 2 : TimeLRUSet Nat), false) := by
  decide

/-- Claim C7 counterexample: in the canonical engine's deprecated pull mode,
a failed lookup during publish is caught by the outer handler, emitted as
`send-error` — not `lookup-error` — and rethrown, so the publish operation
fails hard (`Except.error`).  Two parts of the claim fail at this input: the
event name and the non-propagation. -/
theorem C7_counterexample :
    Canonical.publish 7 5 (fun _ => true)
        ⟨0, true, [⟨1⟩], [], some (Except.error ())⟩
      = (Except.error (), ⟨0, true, [⟨1⟩], [(5, 0)], some (Except.error ())⟩,
         [Event.sendError]) := by
  decide

/-- Claim C7 amended: in the *legacy* engine — the revision whose
`_buildLookup` wrapper backs every publish fan-out — a failed pull lookup is
reported as a non-fatal `lookup-error` event, the previous peer snapshot
`this._peers` is left unchanged, and the failure never escapes the publish
operation (the wrapper catches the rejection; the model is total by
construction and the fan-out still proceeds over the retained snapshot).
In the canonical engine's deprecated pull mode the failure is instead
emitted as `send-error` and rethrown; see the counterexample. -/
theorem C7_lookup_error_nonfatal (s : Legacy.State) (data seqno : Nat) (ok : Nat → Bool)
    (hrun : s.running = true) (herr : s.lookupResult = Except.error ()) :
    Event.lookupError ∈ (Legacy.publish data seqno ok s).2
    ∧ (Legacy.publish data seqno ok s).1.peers = s.peers :=
  Legacy.publish_lookup_error data seqno ok hrun herr

/-- Witness for C7 at a concrete running legacy engine with one neighbor
and a rejecting lookup. -/
theorem C7_lookup_error_nonfatal_witness :
    ((⟨0, true, [⟨1⟩], TimeLRUSet.empty 10000 100, Except.error ()⟩ : Legacy.State).running
        = true
      ∧ (⟨0, true, [⟨1⟩], TimeLRUSet.empty 10000 100, Except.error ()⟩
          : Legacy.State).lookupResult = Except.error ())
    ∧ Event.lookupError ∈ (Legacy.publish 7 5 (fun _ => true)
        ⟨0, true, [⟨1⟩], TimeLRUSet.empty 10000 100, Except.error ()⟩).2
    ∧ (Legacy.publish 7 5 (fun _ => true)
        ⟨0, true, [⟨1⟩], TimeLRUSet.empty 10000 100, Except.error ()⟩).1.peers = [⟨1⟩] :=
  ⟨⟨rfl, rfl⟩,
   (C7_lookup_error_nonfatal _ 7 5 _ rfl rfl).1,
   (C7_lookup_error_nonfatal _ 7 5 _ rfl rfl).2⟩

/-- Claim C8: a successful publish — one whose self token `(seqno, id)` is
not yet cached and whose (optional, deprecated) lookup does not fail —
returns the finalized packet exactly: the given `seqno`, `origin` and `from`
both set to the engine's own id, and the given payload; the value is
produced only after the fan-out loop has dispatched, and no neighbor
acknowledgement is awaited (`sendOk` outcomes do not affect the result). -/
theorem C8_publish_returns_packet (s : Canonical.State) (data seqno : Nat) (ok : Nat → Bool)
    (hfresh : ¬msgId seqno s.id ∈ s.seenSeqs)
    (hlk : ¬s.lookup = some (Except.error ())) :
    (Canonical.publish data seqno ok s).1
      = Except.ok (some { seqno := seqno, origin := s.id, fromN := some s.id
                        , data := data }) := by
  have hget : ¬Canonical.lruGet s.seenSeqs (msgId seqno s.id) = true := by
    rw [Canonical.lruGet_eq_true_iff]; exact hfresh
  cases hl : s.lookup with
  | none => simp [Canonical.publish, Canonical.publishInner, hget, hl]
  | some r =>
    cases r with
    | error u => cases u; exact absurd hl hlk
    | ok ps => simp [Canonical.publish, Canonical.publishInner, hget, hl]

/-- Witness for C8 at a concrete open push-mode engine with one neighbor. -/
theorem C8_publish_returns_packet_witness :
    (¬msgId 5 (⟨0, true, [⟨1⟩], [], none⟩ : Canonical.State).id
        ∈ (⟨0, true, [⟨1⟩], [], none⟩ : Canonical.State).seenSeqs
      ∧ ¬(⟨0, true, [⟨1⟩], [], none⟩ : Canonical.State).lookup
          = some (Except.error ()))
    ∧ (Canonical.publish 7 5 (fun _ => true) ⟨0, true, [⟨1⟩], [], none⟩).1
        = Except.ok (some ⟨5, 0, some 0, 7⟩) :=
  ⟨⟨by decide, by decide⟩,
   C8_publish_returns_packet _ 7 5 _ (by decide) (by decide)⟩

/-- Claim C9: the correspondence between the LRU order list `_list` and the
entry map `_map` — same token set, no duplicates, so `size` equals the list
length — holds of the freshly constructed set and is preserved by `add`,
`has`, `delete`, `clear` and the timer expiry callback `_onTimeout`, hence
holds in every reachable `TimeLRUSet` state. -/
theorem C9_list_map_coherent (s : TimeLRUSet α) (v : α) (maxAge maxSize : Nat)
    (hI : TimeLRUSet.Inv s) :
    TimeLRUSet.Inv (TimeLRUSet.empty maxAge maxSize : TimeLRUSet α)
    ∧ TimeLRUSet.Inv (s.add v) ∧ TimeLRUSet.Inv (s.has v).2
    ∧ TimeLRUSet.Inv (s.delete v).1 ∧ TimeLRUSet.Inv s.clear
    ∧ TimeLRUSet.Inv (s.onTimeout v)
    ∧ (∀ t : α, t ∈ s.list ↔ t ∈ TimeLRUSet.keys s)
    ∧ s.list.Nodup
    ∧ TimeLRUSet.size s = s.list.length :=
  ⟨TimeLRUSet.Inv_empty _ _, TimeLRUSet.Inv_add hI v, TimeLRUSet.Inv_has hI v,
   TimeLRUSet.Inv_delete hI v, TimeLRUSet.Inv_clear s, TimeLRUSet.Inv_onTimeout hI v,
   fun _ => hI.mem_iff, hI.1, hI.size_eq⟩

/-- Witness for C9 at a concrete two-entry set. -/
theorem C9_list_map_coherent_witness :
    TimeLRUSet.Inv ((TimeLRUSet.empty 10000 3 : TimeLRUSet Nat).add 1 |>.add 2)
    ∧ TimeLRUSet.Inv (((TimeLRUSet.empty 10000 3 : TimeLRUSet Nat).add 1 |>.add 2).add 1)
    ∧ TimeLRUSet.size ((TimeLRUSet.empty 10000 3 : TimeLRUSet Nat).add 1 |>.add 2)
        = ((TimeLRUSet.empty 10000 3 : TimeLRUSet Nat).add 1 |>.add 2).list.length :=
  ⟨by decide,
   (C9_list_map_coherent _ 1 10000 3 (by decide)).2.1,
   (C9_list_map_coherent _ 1 10000 3 (by decide)).2.2.2.2.2.2.2.2⟩

/-- Claim C10: when the self token `(seqno, id)` is already in the seen
cache — as after an earlier publish with the same seqno — a further publish
with that seqno is suppressed in `_publish` before the fan-out: no transport
send happens, no event is emitted, the state is unchanged apart from the
auto-open, and no packet is returned. -/
theorem C10_publish_suppressed (s : Canonical.State) (data seqno : Nat) (ok : Nat → Bool)
    (hseen : msgId seqno s.id ∈ s.seenSeqs) :
    Canonical.publish data seqno ok s
      = (Except.ok none, { s with opened := true }, []) := by
  have hget : Canonical.lruGet s.seenSeqs (msgId seqno s.id) = true :=
    Canonical.lruGet_eq_true_iff.mpr hseen
  simp [Canonical.publish, Canonical.publishInner, hget]

/-- Witness for C10: an engine that already published seqno 5. -/
theorem C10_publish_suppressed_witness :
    msgId 5 (⟨0, true, [⟨1⟩], [(5, 0)], none⟩ : Canonical.State).id
        ∈ (⟨0, true, [⟨1⟩], [(5, 0)], none⟩ : Canonical.State).seenSeqs
    ∧ Canonical.publish 7 5 (fun _ => true) ⟨0, true, [⟨1⟩], [(5, 0)], none⟩
        = (Except.ok none, ⟨0, true, [⟨1⟩], [(5, 0)], none⟩, []) :=
  ⟨by decide, C10_publish_suppressed _ 7 5 _ (by decide)⟩

end Broadcast
